import Mathlib

/-!
Verification of the `opensea` Go client (file `opensea-client.go`, the current
revision of the repository).  The development embeds:

* the query encoder `GetAssetsParams.Encode`, including a model of the Go
  standard library pieces it uses (`url.Values` with `Set`/`Add`/`Del`/`Encode`,
  `url.QueryEscape`, `strconv.ParseBool`, `strconv.FormatBool`, `fmt.Sprintf`
  with the `%d` verb);
* the response handling of `Opensea.getURL`, `Opensea.GetAssetsWithContext`
  and `Opensea.GetSingleAssetWithContext`, including a model of
  `encoding/json.Unmarshal` restricted to the shapes the client decodes
  (the `{success: bool}` error envelope and the asset payloads);
* the request paths built by the two request methods.

The HTTP transport itself is abstracted: a request method is modelled as a
function of the `HttpResponse` (status code and body) that the transport
delivered, which is exactly the data the Go code inspects after
`client.Do` / `ioutil.ReadAll` succeed.
-/

/-- Modelled from the spec: the repository's `Address` type, `NullAddress`
sentinel and `Address.String` method are defined in a source file that is not
under `src/` (only their uses in `opensea-client.go` are visible).  Per the
spec's data model an address is a normalized blockchain address string with a
distinguished null sentinel (the all-zero address) used purely as an absence
marker, and `String` returns the string form. -/
abbrev Address := String

/-- Modelled from the spec: the null-address sentinel (see `Address`). -/
def NullAddress : Address := "0x0000000000000000000000000000000000000000"

/-- `Address.String()` in Go: the string form of the address. -/
def Address.string (a : Address) : String := a

/-- The parameter record of the asset-listing call (struct `GetAssetsParams`
in `opensea-client.go`).  Go pointer fields (`*int`, `*bool`) become `Option`;
the `[]int32` token-id list becomes a list of integers (the encoder only
renders the values in decimal, so 32-bit wrap-around plays no role). -/
structure GetAssetsParams where
  Owner : Address
  TokenIDs : List Int
  Collection : String
  CollectionSlug : String
  CollectionEditor : String
  OrderDirection : String
  AssetContractAddress : Address
  AssetContractAddresses : List Address
  Cursor : Option Int
  Limit : Option Int
  IncludeOrders : Option Bool

/-! ## Decimal rendering (`fmt.Sprintf "%d"` and `big.Int.String`)

Go renders integers in base 10 with no leading zeros and a leading `-` for
negative values.  `natDecAux` is fuel-based so that it reduces by `rfl`;
`natDec n` uses `n` itself as fuel, which is ample since the digit count of
`n` is at most `n`. -/

def natDecAux : Nat → Nat → List Char
  | 0, _ => []
  | fuel+1, n =>
    if n = 0 then [] else natDecAux fuel (n / 10) ++ [Char.ofNat (48 + n % 10)]

/-- Decimal rendering of a natural number. -/
def natDec (n : Nat) : String := if n = 0 then "0" else ⟨natDecAux n n⟩

/-- Decimal rendering of an integer: Go's `fmt.Sprintf("%d", _)` and
`big.Int.String()`. -/
def intDec (i : Int) : String :=
  if i < 0 then "-" ++ natDec i.natAbs else natDec i.natAbs

/-- Value of a decimal digit character. -/
def digitVal (c : Char) : Option Nat :=
  if 48 ≤ c.toNat ∧ c.toNat ≤ 57 then some (c.toNat - 48) else none

def parseNatAux : List Char → Nat → Option Nat
  | [], acc => some acc
  | c :: cs, acc =>
    match digitVal c with
    | some d => parseNatAux cs (acc * 10 + d)
    | none => none

def decodeDecimalList : List Char → Option Int
  | [] => none
  | c :: cs =>
    if c = Char.ofNat 45 then
      if cs = [] then none else (parseNatAux cs 0).map (fun n => -(n : Int))
    else (parseNatAux (c :: cs) 0).map (fun n => (n : Int))

/-- Parse a decimal integer string (an optional leading minus followed by at
least one digit).  Used to state that the encoder's renderings are faithful
base-10 representations. -/
def decodeDecimal (s : String) : Option Int := decodeDecimalList s.data

def isDigitChar (c : Char) : Bool := 48 ≤ c.toNat && c.toNat ≤ 57

def goodNatList : List Char → Bool
  | [] => false
  | d :: ds => (d :: ds).all isDigitChar && d ≠ Char.ofNat 48

def goodDecimalList : List Char → Bool
  | [] => false
  | c :: cs =>
    if c = Char.ofNat 45 then goodNatList cs
    else (c :: cs).all isDigitChar && (c = Char.ofNat 48 → cs = [])

/-- A well-formed decimal rendering: digits only, no leading zero (except the
single digit `0` itself), and a minus sign only in front of a nonzero
number. -/
def goodDecimal (s : String) : Bool := goodDecimalList s.data

theorem natDecAux_digits (fuel n : Nat) : ∀ c ∈ natDecAux fuel n, isDigitChar c = true := by
  induction fuel generalizing n with
  | zero => intro c hc; simp [natDecAux] at hc
  | succ fuel ih =>
    intro c hc
    unfold natDecAux at hc
    by_cases h0 : n = 0
    · simp [h0] at hc
    · simp [h0, List.mem_append] at hc
      rcases hc with hc | hc
      · exact ih (n / 10) c hc
      · subst hc
        have hlt : n % 10 < 10 := Nat.mod_lt _ (by norm_num)
        interval_cases h : n % 10 <;> decide

theorem natDecAux_ne_nil (fuel n : Nat) (hn : n ≠ 0) (hf : n ≤ fuel) :
    natDecAux fuel n ≠ [] := by
  cases fuel with
  | zero => omega
  | succ fuel => simp [natDecAux, hn]

theorem natDecAux_zero (fuel : Nat) : natDecAux fuel 0 = [] := by
  cases fuel <;> simp [natDecAux]

theorem natDecAux_head_ne_zero (fuel n : Nat) (hn : n ≠ 0) (hf : n ≤ fuel) :
    ∀ c, (natDecAux fuel n).head? = some c → c ≠ Char.ofNat 48 := by
  induction fuel generalizing n with
  | zero => omega
  | succ fuel ih =>
    intro c hc
    unfold natDecAux at hc
    simp [hn] at hc
    by_cases hq : n / 10 = 0
    · have h10 : n < 10 := by omega
      rw [hq, natDecAux_zero] at hc
      simp at hc
      subst hc
      have h1 : 1 ≤ n := Nat.one_le_iff_ne_zero.mpr hn
      interval_cases n <;> decide
    · have hq' : n / 10 ≤ fuel := by
        have : n / 10 < n := Nat.div_lt_self (by omega) (by norm_num)
        omega
      have hne := natDecAux_ne_nil fuel (n / 10) hq hq'
      rcases hc with hc | hc
      · exact ih (n / 10) hq hq' c hc
      · exact absurd hc.1 hne

theorem parseNatAux_append (l1 l2 : List Char) (acc : Nat) :
    parseNatAux (l1 ++ l2) acc =
      (parseNatAux l1 acc).bind (fun a => parseNatAux l2 a) := by
  induction l1 generalizing acc with
  | nil => rfl
  | cons c cs ih =>
    simp only [List.cons_append, parseNatAux]
    cases digitVal c with
    | some d => exact ih _
    | none => rfl

theorem digitVal_digit (d : Nat) (hd : d < 10) :
    digitVal (Char.ofNat (48 + d)) = some d := by
  interval_cases d <;> decide

theorem parseNatAux_natDecAux (fuel n acc : Nat) (hf : n ≤ fuel) :
    parseNatAux (natDecAux fuel n) acc =
      some (acc * 10 ^ (natDecAux fuel n).length + n) := by
  induction fuel generalizing n acc with
  | zero =>
    have : n = 0 := by omega
    subst this
    simp [natDecAux, parseNatAux]
  | succ fuel ih =>
    by_cases h0 : n = 0
    · subst h0; simp [natDecAux, parseNatAux]
    · have hq' : n / 10 ≤ fuel := by
        have : n / 10 < n := Nat.div_lt_self (by omega) (by norm_num)
        omega
      unfold natDecAux
      simp only [h0, if_false]
      rw [parseNatAux_append, ih (n / 10) acc hq']
      have hmod : n % 10 < 10 := Nat.mod_lt _ (by norm_num)
      simp only [Option.bind, parseNatAux, digitVal_digit (n % 10) hmod,
        List.length_append, List.length_cons, List.length_nil]
      congr 1
      have hdm : n / 10 * 10 + n % 10 = n := by omega
      calc (acc * 10 ^ (natDecAux fuel (n / 10)).length + n / 10) * 10 + n % 10
          = acc * (10 ^ (natDecAux fuel (n / 10)).length * 10) +
              (n / 10 * 10 + n % 10) := by ring
        _ = acc * (10 ^ (natDecAux fuel (n / 10)).length * 10) + n := by rw [hdm]
        _ = acc * 10 ^ ((natDecAux fuel (n / 10)).length + (0 + 1)) + n := by
            ring

theorem natDec_data (n : Nat) (h0 : n ≠ 0) : (natDec n).data = natDecAux n n := by
  simp only [natDec, h0, if_false]

theorem parseNatAux_natDec (n : Nat) : parseNatAux (natDec n).data 0 = some n := by
  by_cases h0 : n = 0
  · subst h0; decide
  · rw [natDec_data n h0, parseNatAux_natDecAux n n 0 (le_refl n)]
    simp

theorem natDec_head_digit (n : Nat) :
    ∀ c, (natDec n).data.head? = some c → isDigitChar c = true := by
  intro c hc
  by_cases h0 : n = 0
  · subst h0
    have h : (natDec 0).data.head? = some (Char.ofNat 48) := by decide
    rw [h] at hc
    injection hc with h2
    subst h2
    decide
  · rw [natDec_data n h0] at hc
    exact natDecAux_digits n n c (List.mem_of_mem_head? hc)

theorem natDec_ne_nil (n : Nat) : (natDec n).data ≠ [] := by
  by_cases h0 : n = 0
  · subst h0; decide
  · rw [natDec_data n h0]
    exact natDecAux_ne_nil n n h0 (le_refl n)

/-- The decimal rendering of any integer (in particular any `big.Int` token
ID, however large) parses back to the same integer: the rendering is the full
base-10 representation, with no truncation. -/
theorem intDec_roundtrip (i : Int) : decodeDecimal (intDec i) = some i := by
  by_cases hneg : i < 0
  · have habs : i.natAbs ≠ 0 := by omega
    simp only [intDec, hneg, if_true]
    have hdata : ("-" ++ natDec i.natAbs).data = Char.ofNat 45 :: (natDec i.natAbs).data := by
      have h1 : ("-" : String).data = [Char.ofNat 45] := by decide
      rw [String.data_append, h1]
      rfl
    unfold decodeDecimal
    rw [hdata]
    simp only [decodeDecimalList]
    rw [if_pos trivial, if_neg (natDec_ne_nil i.natAbs), parseNatAux_natDec]
    show some (-(i.natAbs : Int)) = some i
    congr 1
    omega
  · simp only [intDec, hneg, if_false]
    unfold decodeDecimal
    cases hl : (natDec i.natAbs).data with
    | nil => exact absurd hl (natDec_ne_nil _)
    | cons c cs =>
      have hcdig : isDigitChar c = true := by
        apply natDec_head_digit i.natAbs
        simp [hl]
      have hcne : ¬ c = Char.ofNat 45 := by
        intro h
        subst h
        simp [isDigitChar] at hcdig
      simp only [decodeDecimalList]
      rw [if_neg hcne, ← hl, parseNatAux_natDec]
      show some ((i.natAbs : Int)) = some i
      congr 1
      omega

theorem natDec_all_digits (n : Nat) : ∀ c ∈ (natDec n).data, isDigitChar c = true := by
  intro c hc
  by_cases h0 : n = 0
  · subst h0
    have h : (natDec 0).data = [Char.ofNat 48] := by decide
    rw [h] at hc
    simp at hc
    subst hc
    decide
  · rw [natDec_data n h0] at hc
    exact natDecAux_digits n n c hc

theorem natDec_head_ne_zero (n : Nat) (h0 : n ≠ 0) :
    ∀ c, (natDec n).data.head? = some c → c ≠ Char.ofNat 48 := by
  intro c hc
  rw [natDec_data n h0] at hc
  exact natDecAux_head_ne_zero n n h0 (le_refl n) c hc

/-- The decimal rendering of any integer is well-formed: digits only, no
leading zeros, and a minus sign only for strictly negative values. -/
theorem goodDecimal_intDec (i : Int) : goodDecimal (intDec i) = true := by
  by_cases hneg : i < 0
  · have habs : i.natAbs ≠ 0 := by omega
    simp only [intDec, hneg, if_true]
    unfold goodDecimal
    have hdata : ("-" ++ natDec i.natAbs).data = Char.ofNat 45 :: (natDec i.natAbs).data := by
      have h1 : ("-" : String).data = [Char.ofNat 45] := by decide
      rw [String.data_append, h1]
      rfl
    rw [hdata]
    simp only [goodDecimalList]
    rw [if_pos trivial]
    cases hl : (natDec i.natAbs).data with
    | nil => exact absurd hl (natDec_ne_nil _)
    | cons d ds =>
      have hdig : ∀ x ∈ d :: ds, isDigitChar x = true := by
        rw [← hl]
        exact natDec_all_digits _
      have hd : d ≠ Char.ofNat 48 := by
        apply natDec_head_ne_zero i.natAbs habs
        rw [hl]
        rfl
      simp only [goodNatList, Bool.and_eq_true, List.all_eq_true, decide_eq_true_eq]
      exact ⟨hdig, hd⟩
  · simp only [intDec, hneg, if_false]
    unfold goodDecimal
    cases hl : (natDec i.natAbs).data with
    | nil => exact absurd hl (natDec_ne_nil _)
    | cons c cs =>
      have hdig : ∀ x ∈ c :: cs, isDigitChar x = true := by
        rw [← hl]
        exact natDec_all_digits _
      have hcne : ¬ c = Char.ofNat 45 := by
        intro h
        subst h
        have := hdig _ (List.mem_cons_self _ _)
        simp [isDigitChar] at this
      simp only [goodDecimalList]
      rw [if_neg hcne]
      simp only [Bool.and_eq_true, List.all_eq_true, decide_eq_true_eq]
      refine ⟨hdig, ?_⟩
      intro hc48
      by_cases h0 : i.natAbs = 0
      · rw [h0] at hl
        have h : (natDec 0).data = [Char.ofNat 48] := by decide
        rw [h] at hl
        injection hl with _ h2
        exact h2.symm
      · exact absurd hc48 (natDec_head_ne_zero _ h0 c (by rw [hl]; rfl))

/-! ## `url.QueryEscape`

Model of Go's query-component escaping: ASCII letters, digits and `-._~` are
kept, a space becomes `+`, and every other character becomes `%XX` with
upper-case hex digits.  (Go escapes the bytes of the UTF-8 encoding; the
model is byte-faithful for ASCII, which covers every string the encoder
produces and every key it uses.) -/

def isUnreserved (c : Char) : Bool :=
  (65 ≤ c.toNat && c.toNat ≤ 90) || (97 ≤ c.toNat && c.toNat ≤ 122) ||
    (48 ≤ c.toNat && c.toNat ≤ 57) ||
    c.toNat = 45 || c.toNat = 95 || c.toNat = 46 || c.toNat = 126

def hexDigitChar (n : Nat) : Char :=
  if n < 10 then Char.ofNat (48 + n) else Char.ofNat (55 + n)

def escapeChar (c : Char) : List Char :=
  if isUnreserved c then [c]
  else if c.toNat = 32 then [Char.ofNat 43]
  else [Char.ofNat 37, hexDigitChar (c.toNat / 16 % 16), hexDigitChar (c.toNat % 16)]

def queryEscapeList : List Char → List Char
  | [] => []
  | c :: cs => escapeChar c ++ queryEscapeList cs

/-- Go's `url.QueryEscape` (see `isUnreserved` for the modelled byte range). -/
def queryEscape (s : String) : String := ⟨queryEscapeList s.data⟩

theorem hexDigitChar_ne (n : Nat) (hn : n < 16) :
    hexDigitChar n ≠ Char.ofNat 38 ∧ hexDigitChar n ≠ Char.ofNat 61 := by
  interval_cases n <;> exact ⟨by decide, by decide⟩

theorem escapeChar_no_amp_eq (c : Char) :
    Char.ofNat 38 ∉ escapeChar c ∧ Char.ofNat 61 ∉ escapeChar c := by
  unfold escapeChar
  split
  · rename_i hu
    constructor
    · intro h
      rw [List.mem_singleton] at h
      rw [← h] at hu
      exact absurd hu (by decide)
    · intro h
      rw [List.mem_singleton] at h
      rw [← h] at hu
      exact absurd hu (by decide)
  · split
    · exact ⟨by decide, by decide⟩
    · have h1 := hexDigitChar_ne (c.toNat / 16 % 16) (Nat.mod_lt _ (by norm_num))
      have h2 := hexDigitChar_ne (c.toNat % 16) (Nat.mod_lt _ (by norm_num))
      constructor
      · intro h
        rcases List.mem_cons.mp h with h | h
        · exact absurd h.symm (by decide)
        · rcases List.mem_cons.mp h with h | h
          · exact h1.1 h.symm
          · rw [List.mem_singleton] at h
            exact h2.1 h.symm
      · intro h
        rcases List.mem_cons.mp h with h | h
        · exact absurd h.symm (by decide)
        · rcases List.mem_cons.mp h with h | h
          · exact h1.2 h.symm
          · rw [List.mem_singleton] at h
            exact h2.2 h.symm

theorem queryEscapeList_no_amp (l : List Char) : Char.ofNat 38 ∉ queryEscapeList l := by
  induction l with
  | nil => simp [queryEscapeList]
  | cons c cs ih =>
    unfold queryEscapeList
    intro h
    rcases List.mem_append.mp h with h | h
    · exact (escapeChar_no_amp_eq c).1 h
    · exact ih h

theorem queryEscapeList_no_eq (l : List Char) : Char.ofNat 61 ∉ queryEscapeList l := by
  induction l with
  | nil => simp [queryEscapeList]
  | cons c cs ih =>
    unfold queryEscapeList
    intro h
    rcases List.mem_append.mp h with h | h
    · exact (escapeChar_no_amp_eq c).2 h
    · exact ih h

theorem queryEscapeList_unreserved (l : List Char)
    (h : ∀ c ∈ l, isUnreserved c = true) : queryEscapeList l = l := by
  induction l with
  | nil => rfl
  | cons c cs ih =>
    unfold queryEscapeList
    rw [ih (fun x hx => h x (List.mem_cons_of_mem _ hx))]
    have hc := h c (List.mem_cons_self _ _)
    simp [escapeChar, hc]

/-- Characters left unchanged by escaping stay unchanged at string level. -/
theorem queryEscape_unreserved (s : String)
    (h : ∀ c ∈ s.data, isUnreserved c = true) : queryEscape s = s := by
  unfold queryEscape
  rw [queryEscapeList_unreserved s.data h]

theorem intDec_unreserved (i : Int) : ∀ c ∈ (intDec i).data, isUnreserved c = true := by
  intro c hc
  unfold intDec at hc
  have hdig : isDigitChar c = true → isUnreserved c = true := by
    intro h
    simp [isDigitChar] at h
    simp [isUnreserved]
    omega
  by_cases hneg : i < 0
  · simp only [hneg, if_true] at hc
    rw [String.data_append] at hc
    rcases List.mem_append.mp hc with h | h
    · have hm : ("-" : String).data = [Char.ofNat 45] := by decide
      rw [hm] at h
      simp at h
      subst h
      decide
    · exact hdig (natDec_all_digits _ c h)
  · simp only [hneg, if_false] at hc
    exact hdig (natDec_all_digits _ c hc)

/-- The escaped form of a decimal rendering is the rendering itself. -/
theorem queryEscape_intDec (i : Int) : queryEscape (intDec i) = intDec i :=
  queryEscape_unreserved _ (intDec_unreserved i)


/-! ## `url.Values`

Go's `url.Values` is a `map[string][]string`.  The model is an association
list with at most one binding per key (`Set` and `Add` merge into an existing
binding, as the map does); `Encode` sorts the bindings by key — as Go's
`Encode` sorts the map keys with `sort.Strings` — and emits one
`escapedKey=escapedValue` component per value, joined with `&`. -/

abbrev Values := List (String × List String)

def Values.get : Values → String → List String
  | [], _ => []
  | (k1, vs) :: rest, k => if k1 = k then vs else Values.get rest k

/-- `url.Values.Set`: replace the binding of `k` with the single value `v`. -/
def Values.set : Values → String → String → Values
  | [], k, v => [(k, [v])]
  | (k1, vs) :: rest, k, v =>
    if k1 = k then (k1, [v]) :: rest else (k1, vs) :: Values.set rest k v

/-- `url.Values.Add`: append `v` to the values bound to `k`. -/
def Values.add : Values → String → String → Values
  | [], k, v => [(k, [v])]
  | (k1, vs) :: rest, k, v =>
    if k1 = k then (k1, vs ++ [v]) :: rest else (k1, vs) :: Values.add rest k v

/-- `url.Values.Del`: remove the binding of `k`. -/
def Values.del (q : Values) (k : String) : Values := q.filter (fun b => b.1 ≠ k)

/-- The keys of a `Values` are pairwise distinct (the `map[string][]string`
invariant, maintained by `set`/`add`/`del`). -/
def NoDupKeys (q : Values) : Prop := (q.map (fun b => b.1)).Nodup

/-- Every key of the `Values` is left unchanged by query escaping.  All keys
the encoder uses are plain ASCII identifiers, so this holds throughout. -/
def EscKeys (q : Values) : Prop := ∀ b ∈ q, queryEscape b.1 = b.1

theorem get_nil (k : String) : Values.get [] k = [] := rfl

theorem get_set_self (q : Values) (k v : String) : (q.set k v).get k = [v] := by
  induction q with
  | nil => simp [Values.set, Values.get]
  | cons b rest ih =>
    obtain ⟨k1, vs⟩ := b
    unfold Values.set
    by_cases h : k1 = k
    · rw [if_pos h]
      unfold Values.get
      rw [if_pos h]
    · rw [if_neg h]
      unfold Values.get
      rw [if_neg h]
      exact ih

theorem get_set_ne (q : Values) (k v k0 : String) (h : k ≠ k0) :
    (q.set k v).get k0 = q.get k0 := by
  induction q with
  | nil => simp [Values.set, Values.get, h]
  | cons b rest ih =>
    obtain ⟨k1, vs⟩ := b
    unfold Values.set
    by_cases h1 : k1 = k
    · rw [if_pos h1]
      unfold Values.get
      have : ¬ k1 = k0 := by rw [h1]; exact h
      rw [if_neg this, if_neg this]
    · rw [if_neg h1]
      unfold Values.get
      by_cases h2 : k1 = k0
      · rw [if_pos h2, if_pos h2]
      · rw [if_neg h2, if_neg h2]
        exact ih

theorem get_add_self (q : Values) (k v : String) :
    (q.add k v).get k = q.get k ++ [v] := by
  induction q with
  | nil => simp [Values.add, Values.get]
  | cons b rest ih =>
    obtain ⟨k1, vs⟩ := b
    unfold Values.add
    by_cases h : k1 = k
    · rw [if_pos h]
      unfold Values.get
      rw [if_pos h, if_pos h]
    · rw [if_neg h]
      unfold Values.get
      rw [if_neg h, if_neg h]
      exact ih

theorem get_add_ne (q : Values) (k v k0 : String) (h : k ≠ k0) :
    (q.add k v).get k0 = q.get k0 := by
  induction q with
  | nil => simp [Values.add, Values.get, h]
  | cons b rest ih =>
    obtain ⟨k1, vs⟩ := b
    unfold Values.add
    by_cases h1 : k1 = k
    · rw [if_pos h1]
      unfold Values.get
      have : ¬ k1 = k0 := by rw [h1]; exact h
      rw [if_neg this, if_neg this]
    · rw [if_neg h1]
      unfold Values.get
      by_cases h2 : k1 = k0
      · rw [if_pos h2, if_pos h2]
      · rw [if_neg h2, if_neg h2]
        exact ih

theorem get_del_self (q : Values) (k : String) : (q.del k).get k = [] := by
  induction q with
  | nil => rfl
  | cons b rest ih =>
    obtain ⟨k1, vs⟩ := b
    unfold Values.del at ih ⊢
    by_cases h : k1 = k
    · rw [List.filter_cons_of_neg (by simp [h])]
      exact ih
    · rw [List.filter_cons_of_pos (by simp [h])]
      show (if k1 = k then vs else Values.get (rest.filter (fun b => b.1 ≠ k)) k) = []
      rw [if_neg h]
      exact ih

theorem get_del_ne (q : Values) (k k0 : String) (h : k ≠ k0) :
    (q.del k).get k0 = q.get k0 := by
  induction q with
  | nil => rfl
  | cons b rest ih =>
    obtain ⟨k1, vs⟩ := b
    unfold Values.del at ih ⊢
    by_cases h1 : k1 = k
    · rw [List.filter_cons_of_neg (by simp [h1])]
      rw [ih]
      show Values.get rest k0 = if k1 = k0 then vs else Values.get rest k0
      have h2 : ¬ k1 = k0 := by rw [h1]; exact h
      rw [if_neg h2]
    · rw [List.filter_cons_of_pos (by simp [h1])]
      show (if k1 = k0 then vs else Values.get (rest.filter (fun b => b.1 ≠ k)) k0) =
        if k1 = k0 then vs else Values.get rest k0
      by_cases h2 : k1 = k0
      · rw [if_pos h2, if_pos h2]
      · rw [if_neg h2, if_neg h2]
        exact ih

theorem mem_keys_set (q : Values) (k v k1 : String)
    (h : k1 ∈ (q.set k v).map (fun b => b.1)) :
    k1 ∈ q.map (fun b => b.1) ∨ k1 = k := by
  induction q with
  | nil =>
    simp [Values.set] at h
    exact Or.inr h
  | cons b rest ih =>
    obtain ⟨k2, vs⟩ := b
    unfold Values.set at h
    by_cases h2 : k2 = k
    · rw [if_pos h2] at h
      rw [List.map_cons, List.mem_cons] at h
      rcases h with h | h
      · exact Or.inl (by rw [List.map_cons, List.mem_cons]; exact Or.inl h)
      · exact Or.inl (by rw [List.map_cons, List.mem_cons]; exact Or.inr h)
    · rw [if_neg h2] at h
      rw [List.map_cons, List.mem_cons] at h
      rcases h with h | h
      · exact Or.inl (by rw [List.map_cons, List.mem_cons]; exact Or.inl h)
      · rcases ih h with h3 | h3
        · exact Or.inl (by rw [List.map_cons, List.mem_cons]; exact Or.inr h3)
        · exact Or.inr h3

theorem mem_keys_add (q : Values) (k v k1 : String)
    (h : k1 ∈ (q.add k v).map (fun b => b.1)) :
    k1 ∈ q.map (fun b => b.1) ∨ k1 = k := by
  induction q with
  | nil =>
    simp [Values.add] at h
    exact Or.inr h
  | cons b rest ih =>
    obtain ⟨k2, vs⟩ := b
    unfold Values.add at h
    by_cases h2 : k2 = k
    · rw [if_pos h2] at h
      rw [List.map_cons, List.mem_cons] at h
      rcases h with h | h
      · exact Or.inl (by rw [List.map_cons, List.mem_cons]; exact Or.inl h)
      · exact Or.inl (by rw [List.map_cons, List.mem_cons]; exact Or.inr h)
    · rw [if_neg h2] at h
      rw [List.map_cons, List.mem_cons] at h
      rcases h with h | h
      · exact Or.inl (by rw [List.map_cons, List.mem_cons]; exact Or.inl h)
      · rcases ih h with h3 | h3
        · exact Or.inl (by rw [List.map_cons, List.mem_cons]; exact Or.inr h3)
        · exact Or.inr h3

theorem nodup_set (q : Values) (k v : String) (h : NoDupKeys q) :
    NoDupKeys (q.set k v) := by
  induction q with
  | nil => simp [Values.set, NoDupKeys]
  | cons b rest ih =>
    obtain ⟨k1, vs⟩ := b
    unfold NoDupKeys at h ⊢
    simp only [List.map_cons, List.nodup_cons] at h
    unfold Values.set
    by_cases h1 : k1 = k
    · rw [if_pos h1]
      simp only [List.map_cons, List.nodup_cons]
      exact h
    · rw [if_neg h1]
      simp only [List.map_cons, List.nodup_cons]
      constructor
      · intro hmem
        rcases mem_keys_set rest k v k1 hmem with h2 | h2
        · exact h.1 h2
        · exact h1 h2
      · exact ih h.2

theorem nodup_add (q : Values) (k v : String) (h : NoDupKeys q) :
    NoDupKeys (q.add k v) := by
  induction q with
  | nil => simp [Values.add, NoDupKeys]
  | cons b rest ih =>
    obtain ⟨k1, vs⟩ := b
    unfold NoDupKeys at h ⊢
    simp only [List.map_cons, List.nodup_cons] at h
    unfold Values.add
    by_cases h1 : k1 = k
    · rw [if_pos h1]
      simp only [List.map_cons, List.nodup_cons]
      exact h
    · rw [if_neg h1]
      simp only [List.map_cons, List.nodup_cons]
      constructor
      · intro hmem
        rcases mem_keys_add rest k v k1 hmem with h2 | h2
        · exact h.1 h2
        · exact h1 h2
      · exact ih h.2

theorem nodup_del (q : Values) (k : String) (h : NoDupKeys q) :
    NoDupKeys (q.del k) := by
  unfold NoDupKeys at h ⊢
  exact List.Nodup.sublist (List.Sublist.map _ (List.filter_sublist q)) h

theorem mem_set (q : Values) (k v : String) (b : String × List String)
    (h : b ∈ q.set k v) : b ∈ q ∨ b.1 = k := by
  induction q with
  | nil =>
    simp [Values.set] at h
    subst h
    exact Or.inr rfl
  | cons b1 rest ih =>
    obtain ⟨k1, vs⟩ := b1
    unfold Values.set at h
    by_cases h1 : k1 = k
    · rw [if_pos h1] at h
      rcases List.mem_cons.mp h with h | h
      · subst h
        exact Or.inr h1
      · exact Or.inl (List.mem_cons_of_mem _ h)
    · rw [if_neg h1] at h
      rcases List.mem_cons.mp h with h | h
      · subst h
        exact Or.inl (List.mem_cons_self _ _)
      · rcases ih h with h2 | h2
        · exact Or.inl (List.mem_cons_of_mem _ h2)
        · exact Or.inr h2

theorem mem_add (q : Values) (k v : String) (b : String × List String)
    (h : b ∈ q.add k v) : b ∈ q ∨ b.1 = k := by
  induction q with
  | nil =>
    simp [Values.add] at h
    subst h
    exact Or.inr rfl
  | cons b1 rest ih =>
    obtain ⟨k1, vs⟩ := b1
    unfold Values.add at h
    by_cases h1 : k1 = k
    · rw [if_pos h1] at h
      rcases List.mem_cons.mp h with h | h
      · subst h
        exact Or.inr h1
      · exact Or.inl (List.mem_cons_of_mem _ h)
    · rw [if_neg h1] at h
      rcases List.mem_cons.mp h with h | h
      · subst h
        exact Or.inl (List.mem_cons_self _ _)
      · rcases ih h with h2 | h2
        · exact Or.inl (List.mem_cons_of_mem _ h2)
        · exact Or.inr h2

theorem esckeys_set (q : Values) (k v : String) (hq : EscKeys q)
    (hk : queryEscape k = k) : EscKeys (q.set k v) := by
  intro b hb
  rcases mem_set q k v b hb with h | h
  · exact hq b h
  · rw [h]
    exact hk

theorem esckeys_add (q : Values) (k v : String) (hq : EscKeys q)
    (hk : queryEscape k = k) : EscKeys (q.add k v) := by
  intro b hb
  rcases mem_add q k v b hb with h | h
  · exact hq b h
  · rw [h]
    exact hk

theorem esckeys_del (q : Values) (k : String) (hq : EscKeys q) :
    EscKeys (q.del k) := by
  intro b hb
  exact hq b (List.mem_of_mem_filter hb)

/-! ## Query strings as lists of `key=value` components

`joinSep` models `strings.Join`-style interleaving (the `&` between
components that `url.Values.Encode` writes); `splitOnChar`/`splitFirstAt`
recover the components of an encoded query string, exactly as a reader of
the query string (or `url.ParseQuery`) would: split on `&`, then split each
component at its first `=`. -/

def joinSep (sep : Char) : List (List Char) → List Char
  | [] => []
  | [x] => x
  | x :: y :: rest => x ++ sep :: joinSep sep (y :: rest)

def consHead (c : Char) : List (List Char) → List (List Char)
  | [] => [[c]]
  | g :: gs => (c :: g) :: gs

def splitOnChar (sep : Char) : List Char → List (List Char)
  | [] => [[]]
  | c :: cs =>
    if c = sep then [] :: splitOnChar sep cs
    else consHead c (splitOnChar sep cs)

def splitFirstAt (sep : Char) : List Char → List Char × Option (List Char)
  | [] => ([], none)
  | c :: cs =>
    if c = sep then ([], some cs)
    else ((c :: (splitFirstAt sep cs).1), (splitFirstAt sep cs).2)

theorem consHead_ne_nil (c : Char) (l : List (List Char)) : consHead c l ≠ [] := by
  cases l <;> simp [consHead]

theorem splitOnChar_ne_nil (sep : Char) (l : List Char) : splitOnChar sep l ≠ [] := by
  cases l with
  | nil => simp [splitOnChar]
  | cons c cs =>
    unfold splitOnChar
    by_cases h : c = sep
    · rw [if_pos h]
      simp
    · rw [if_neg h]
      exact consHead_ne_nil c _

theorem splitOnChar_no_sep (sep : Char) (l : List Char) (h : sep ∉ l) :
    splitOnChar sep l = [l] := by
  induction l with
  | nil => rfl
  | cons c cs ih =>
    unfold splitOnChar
    have hc : ¬ c = sep := fun hx => h (hx ▸ List.mem_cons_self _ _)
    rw [if_neg hc, ih (fun hx => h (List.mem_cons_of_mem _ hx))]
    rfl

theorem splitOnChar_sep_cons (sep : Char) (t : List Char) :
    splitOnChar sep (sep :: t) = [] :: splitOnChar sep t := by
  simp [splitOnChar]

theorem splitOnChar_append (sep : Char) (x l : List Char) (g : List Char)
    (gs : List (List Char)) (hx : sep ∉ x) (hl : splitOnChar sep l = g :: gs) :
    splitOnChar sep (x ++ l) = (x ++ g) :: gs := by
  induction x with
  | nil => simpa using hl
  | cons c cs ih =>
    have hc : ¬ c = sep := fun hx2 => hx (hx2 ▸ List.mem_cons_self _ _)
    have ih2 := ih (fun hx2 => hx (List.mem_cons_of_mem _ hx2))
    rw [List.cons_append]
    unfold splitOnChar
    rw [if_neg hc, ih2]
    rfl

theorem joinSep_roundtrip (sep : Char) (chunks : List (List Char))
    (hne : chunks ≠ []) (hfree : ∀ ch ∈ chunks, sep ∉ ch) :
    splitOnChar sep (joinSep sep chunks) = chunks := by
  induction chunks with
  | nil => exact absurd rfl hne
  | cons x rest ih =>
    cases rest with
    | nil =>
      show splitOnChar sep (joinSep sep [x]) = [x]
      unfold joinSep
      exact splitOnChar_no_sep sep x (hfree x (List.mem_cons_self _ _))
    | cons y rest2 =>
      have hx : sep ∉ x := hfree x (List.mem_cons_self _ _)
      have hrec := ih (by simp) (fun ch hch => hfree ch (List.mem_cons_of_mem _ hch))
      show splitOnChar sep (x ++ sep :: joinSep sep (y :: rest2)) = x :: y :: rest2
      have hsep : splitOnChar sep (sep :: joinSep sep (y :: rest2)) =
          [] :: splitOnChar sep (joinSep sep (y :: rest2)) :=
        splitOnChar_sep_cons sep _
      rw [hrec] at hsep
      rw [splitOnChar_append sep x _ _ _ hx hsep]
      simp

theorem splitFirstAt_append (sep : Char) (k v : List Char) (hk : sep ∉ k) :
    splitFirstAt sep (k ++ sep :: v) = (k, some v) := by
  induction k with
  | nil =>
    show splitFirstAt sep (sep :: v) = ([], some v)
    unfold splitFirstAt
    rw [if_pos rfl]
  | cons c cs ih =>
    have hc : ¬ c = sep := fun hx => hk (hx ▸ List.mem_cons_self _ _)
    have ih2 := ih (fun hx => hk (List.mem_cons_of_mem _ hx))
    rw [List.cons_append]
    unfold splitFirstAt
    rw [if_neg hc, ih2]

/-- One `(key, value)` pair per value, binding by binding. -/
def Values.pairs : Values → List (String × String)
  | [] => []
  | (k, vs) :: rest => vs.map (fun v => (k, v)) ++ Values.pairs rest

/-- Byte-wise comparison of strings, as `sort.Strings` orders Go strings
(faithful for the ASCII keys the encoder uses). -/
def strLtB : List Char → List Char → Bool
  | [], [] => false
  | [], _ :: _ => true
  | _ :: _, [] => false
  | a :: as, b :: bs =>
    if a.toNat < b.toNat then true
    else if b.toNat < a.toNat then false
    else strLtB as bs

def keyLt (a b : String × List String) : Prop := strLtB a.1.data b.1.data = true

instance : DecidableRel keyLt :=
  fun a b => inferInstanceAs (Decidable (strLtB a.1.data b.1.data = true))

/-- `url.Values.Encode` sorts the bindings by key. -/
def Values.sorted (q : Values) : Values := List.insertionSort keyLt q

/-- One `escapedKey=escapedValue` component. -/
def encodePair (kv : String × String) : List Char :=
  queryEscapeList kv.1.data ++ Char.ofNat 61 :: queryEscapeList kv.2.data

/-- `url.Values.Encode`: sort bindings by key, escape keys and values, and
join the `key=value` components with `&`. -/
def Values.encode (q : Values) : String :=
  ⟨joinSep (Char.ofNat 38) ((q.sorted.pairs).map encodePair)⟩

/-- The `key=value` components a reader recovers from a query string: split
on `&`, then split each component at its first `=` (missing `=` yields an
empty value). -/
def entryOfChunk (chunk : List Char) : String × String :=
  (⟨(splitFirstAt (Char.ofNat 61) chunk).1⟩,
    ⟨((splitFirstAt (Char.ofNat 61) chunk).2.getD [])⟩)

def queryEntries (s : String) : List (String × String) :=
  match s.data with
  | [] => []
  | c :: cs => (splitOnChar (Char.ofNat 38) (c :: cs)).map entryOfChunk

/-- The values listed under key `k` in a query string, in order. -/
def keyVals (s : String) (k : String) : List String :=
  (queryEntries s).filterMap (fun e => if e.1 = k then some e.2 else none)

theorem entryOfChunk_encodePair (kv : String × String) :
    entryOfChunk (encodePair kv) = (queryEscape kv.1, queryEscape kv.2) := by
  unfold entryOfChunk encodePair
  rw [splitFirstAt_append _ _ _ (queryEscapeList_no_eq kv.1.data)]
  rfl

theorem encodePair_no_amp (kv : String × String) :
    Char.ofNat 38 ∉ encodePair kv := by
  unfold encodePair
  intro h
  rcases List.mem_append.mp h with h | h
  · exact queryEscapeList_no_amp _ h
  · rcases List.mem_cons.mp h with h | h
    · exact absurd h (by decide)
    · exact queryEscapeList_no_amp _ h

theorem encodePair_ne_nil (kv : String × String) : encodePair kv ≠ [] := by
  unfold encodePair
  intro h
  exact absurd (List.append_eq_nil.mp h).2 (by simp)

theorem joinSep_ne_nil (sep : Char) (x : List Char) (rest : List (List Char))
    (hx : x ≠ []) : joinSep sep (x :: rest) ≠ [] := by
  cases rest with
  | nil => exact hx
  | cons y rest2 =>
    show x ++ sep :: joinSep sep (y :: rest2) ≠ []
    simp

/-- Parsing an encoded `Values` recovers exactly its sorted, escaped pairs. -/
theorem queryEntries_encode (q : Values) :
    queryEntries (q.encode) =
      (q.sorted.pairs).map (fun kv => (queryEscape kv.1, queryEscape kv.2)) := by
  unfold Values.encode queryEntries
  cases hp : q.sorted.pairs with
  | nil => simp [joinSep]
  | cons p ps =>
    have hchunks : (p :: ps).map encodePair = encodePair p :: ps.map encodePair :=
      List.map_cons _ _ _
    rw [hchunks]
    have hne := joinSep_ne_nil (Char.ofNat 38) (encodePair p) (ps.map encodePair)
        (encodePair_ne_nil p)
    have hfree : ∀ ch ∈ encodePair p :: ps.map encodePair, Char.ofNat 38 ∉ ch := by
      intro ch hch
      rcases List.mem_cons.mp hch with h | h
      · subst h
        exact encodePair_no_amp p
      · rw [List.mem_map] at h
        obtain ⟨kv, _, hkv⟩ := h
        subst hkv
        exact encodePair_no_amp kv
    have hround := joinSep_roundtrip (Char.ofNat 38)
        (encodePair p :: ps.map encodePair) (by simp) hfree
    cases hdata : joinSep (Char.ofNat 38) (encodePair p :: ps.map encodePair) with
    | nil => exact absurd hdata hne
    | cons c cs =>
      show (splitOnChar (Char.ofNat 38) (c :: cs)).map entryOfChunk = _
      rw [← hdata, hround, ← List.map_cons encodePair p ps, List.map_map]
      exact List.map_congr_left (fun kv _ => entryOfChunk_encodePair kv)

theorem filterMap_key_map_self (k0 : String) (vs : List String) :
    (vs.map (fun v => (k0, v))).filterMap
      (fun e => if e.1 = k0 then some e.2 else none) = vs := by
  induction vs with
  | nil => rfl
  | cons v rest ih =>
    simp [List.filterMap_cons, ih]

theorem filterMap_key_map_ne (k k0 : String) (vs : List String) (h : k ≠ k0) :
    (vs.map (fun v => (k, v))).filterMap
      (fun e => if e.1 = k0 then some e.2 else none) = [] := by
  induction vs with
  | nil => rfl
  | cons v rest ih =>
    simp only [List.map_cons, List.filterMap_cons, if_neg h]
    exact ih

theorem pairsVals_not_mem (q : Values) (k0 : String)
    (h : k0 ∉ q.map (fun b => b.1)) :
    q.pairs.filterMap (fun e => if e.1 = k0 then some e.2 else none) = [] := by
  induction q with
  | nil => rfl
  | cons b rest ih =>
    obtain ⟨k, vs⟩ := b
    rw [List.map_cons, List.mem_cons] at h
    push_neg at h
    unfold Values.pairs
    rw [List.filterMap_append, filterMap_key_map_ne k k0 vs (fun he => h.1 he.symm),
      ih h.2]
    rfl

theorem pairsVals_get (q : Values) (k0 : String) (hnd : NoDupKeys q) :
    q.pairs.filterMap (fun e => if e.1 = k0 then some e.2 else none) = q.get k0 := by
  induction q with
  | nil => rfl
  | cons b rest ih =>
    obtain ⟨k, vs⟩ := b
    unfold NoDupKeys at hnd
    rw [List.map_cons, List.nodup_cons] at hnd
    unfold Values.pairs
    rw [List.filterMap_append]
    show _ = Values.get ((k, vs) :: rest) k0
    unfold Values.get
    by_cases h : k = k0
    · subst h
      rw [if_pos rfl, filterMap_key_map_self, pairsVals_not_mem rest k hnd.1]
      simp
    · rw [if_neg h, filterMap_key_map_ne k k0 vs h, ih hnd.2]
      rfl

theorem pairs_key_mem (q : Values) (kv : String × String) (h : kv ∈ q.pairs) :
    kv.1 ∈ q.map (fun b => b.1) := by
  induction q with
  | nil => simp [Values.pairs] at h
  | cons b rest ih =>
    obtain ⟨k, vs⟩ := b
    unfold Values.pairs at h
    rw [List.map_cons, List.mem_cons]
    rcases List.mem_append.mp h with h | h
    · rw [List.mem_map] at h
      obtain ⟨v, _, hv⟩ := h
      subst hv
      exact Or.inl rfl
    · exact Or.inr (ih h)

theorem get_eq_nil_of_not_mem (q : Values) (k0 : String)
    (h : k0 ∉ q.map (fun b => b.1)) : q.get k0 = [] := by
  induction q with
  | nil => rfl
  | cons b rest ih =>
    obtain ⟨k, vs⟩ := b
    rw [List.map_cons, List.mem_cons] at h
    push_neg at h
    show Values.get ((k, vs) :: rest) k0 = []
    unfold Values.get
    rw [if_neg (fun he => h.1 he.symm)]
    exact ih h.2

theorem key_mem_of_binding (q : Values) (k0 : String) (vs : List String)
    (h : (k0, vs) ∈ q) : k0 ∈ q.map (fun b => b.1) := by
  rw [List.mem_map]
  exact ⟨(k0, vs), h, rfl⟩

theorem get_eq_of_mem (q : Values) (k0 : String) (vs : List String)
    (hnd : NoDupKeys q) (h : (k0, vs) ∈ q) : q.get k0 = vs := by
  induction q with
  | nil => simp at h
  | cons b rest ih =>
    obtain ⟨k1, vs1⟩ := b
    unfold NoDupKeys at hnd
    rw [List.map_cons, List.nodup_cons] at hnd
    show Values.get ((k1, vs1) :: rest) k0 = vs
    unfold Values.get
    rcases List.mem_cons.mp h with h | h
    · injection h with h1 h2
      subst h1
      rw [if_pos rfl]
      exact h2.symm
    · by_cases hk : k1 = k0
      · subst hk
        exact absurd (key_mem_of_binding rest _ vs h) hnd.1
      · rw [if_neg hk]
        exact ih hnd.2 h

theorem get_perm (q q2 : Values) (hperm : q.Perm q2) (hnd : NoDupKeys q)
    (k0 : String) : q.get k0 = q2.get k0 := by
  have hnd2 : NoDupKeys q2 := by
    unfold NoDupKeys at hnd ⊢
    exact ((hperm.map (fun b => b.1)).nodup_iff).mp hnd
  by_cases hk : k0 ∈ q.map (fun b => b.1)
  · rw [List.mem_map] at hk
    obtain ⟨b, hb, hb1⟩ := hk
    obtain ⟨k1, vs1⟩ := b
    simp at hb1
    subst hb1
    rw [get_eq_of_mem q _ vs1 hnd hb,
      get_eq_of_mem q2 _ vs1 hnd2 (hperm.subset hb)]
  · have hk2 : k0 ∉ q2.map (fun b => b.1) := by
      intro hmem
      exact hk (((hperm.map (fun b => b.1)).mem_iff).mpr hmem)
    rw [get_eq_nil_of_not_mem q k0 hk, get_eq_nil_of_not_mem q2 k0 hk2]

/-- Master lemma: the values a reader finds under key `k0` in the encoded
query string are exactly the escaped values the `Values` holds under `k0`,
provided keys are unique and escape-invariant (true of every key the encoder
uses). -/
theorem keyVals_encode (q : Values) (k0 : String) (hnd : NoDupKeys q)
    (hesc : EscKeys q) :
    keyVals (q.encode) k0 = (q.get k0).map queryEscape := by
  unfold keyVals
  rw [queryEntries_encode, List.filterMap_map]
  have hperm : q.sorted.Perm q := List.perm_insertionSort keyLt q
  have hnds : NoDupKeys q.sorted := by
    unfold NoDupKeys at hnd ⊢
    exact ((hperm.map (fun b => b.1)).nodup_iff).mpr hnd
  have hescs : EscKeys q.sorted := fun b hb => hesc b (hperm.subset hb)
  rw [← get_perm q.sorted q hperm hnds k0, ← pairsVals_get q.sorted k0 hnds,
    List.map_filterMap]
  apply List.filterMap_congr
  intro kv hkv
  have hkey : queryEscape kv.1 = kv.1 := by
    have hmem := pairs_key_mem q.sorted kv hkv
    rw [List.mem_map] at hmem
    obtain ⟨b, hb, hb1⟩ := hmem
    rw [← hb1]
    exact hescs b hb
  show (if queryEscape kv.1 = k0 then some (queryEscape kv.2) else none) =
    Option.map queryEscape (if kv.1 = k0 then some kv.2 else none)
  rw [hkey]
  by_cases h : kv.1 = k0
  · rw [if_pos h, if_pos h]
    rfl
  · rw [if_neg h, if_neg h]
    rfl

/-! ## The encoder `GetAssetsParams.Encode`

Each step below embeds one statement (or one `if`/loop) of the Go method, in
source order.  `Values.setIf` is the `if cond { q.Set(k, v) }` shape used by
the string and address fields; `tokenIdsStep` and `contractsStep` are the two
`for` loops; `optPosStep` is the `if p.X != nil && *p.X > 0 { q.Set(...) }`
shape used for `cursor` and `limit`; `includeOrdersStep` is the
`strconv.ParseBool` branch. -/

def Values.setIf (c : Prop) [Decidable c] (q : Values) (k v : String) : Values :=
  if c then q.set k v else q

/-- `strconv.FormatBool`. -/
def formatBool (b : Bool) : String := if b then "true" else "false"

/-- `strconv.ParseBool`: `none` models a parse error (with the returned
value being the zero `false` in Go). -/
def parseBool (s : String) : Option Bool :=
  if s = "1" ∨ s = "t" ∨ s = "T" ∨ s = "true" ∨ s = "TRUE" ∨ s = "True" then some true
  else if s = "0" ∨ s = "f" ∨ s = "F" ∨ s = "false" ∨ s = "FALSE" ∨ s = "False" then
    some false
  else none

/-- The `for` loop over `p.TokenIDs`, guarded by
`p.TokenIDs != nil && len(p.TokenIDs) > 0`: one `q.Add("token_ids",
fmt.Sprintf("%d", id))` per element. -/
def tokenIdsStep (tids : List Int) (q : Values) : Values :=
  if tids ≠ [] then
    tids.foldl (fun q t => q.add "token_ids" (intDec t)) q
  else q

/-- The `for` loop over `p.AssetContractAddresses` (after the
`q.Del("asset_contract_addresses")`): entries with an empty string form or
equal to `NullAddress` are skipped, every other entry is added. -/
def contractsStep (addrs : List Address) (q : Values) : Values :=
  if addrs ≠ [] then
    addrs.foldl
      (fun q a =>
        if a.string ≠ "" ∧ a ≠ NullAddress then
          q.add "asset_contract_addresses" a.string
        else q)
      q
  else q

/-- `if p.X != nil && *p.X > 0 { q.Set(k, fmt.Sprintf("%d", *p.X)) }`. -/
def optPosStep (o : Option Int) (k : String) (q : Values) : Values :=
  match o with
  | some n => if n > 0 then q.set k (intDec n) else q
  | none => q

/-- The `include_orders` branch: Go parses `fmt.Sprintf("%v", *p.IncludeOrders)`
back with `strconv.ParseBool` and sets the key only when `err != nil` (with
the zero value `false` that `ParseBool` returned alongside the error). -/
def includeOrdersStep (io : Option Bool) (q : Values) : Values :=
  match io with
  | some b =>
    match parseBool (formatBool b) with
    | none => q.set "include_orders" (formatBool false)
    | some _ => q
  | none => q

/-- `GetAssetsParams.Encode`, statement by statement from
`opensea-client.go`. -/
def GetAssetsParams.values (p : GetAssetsParams) : Values :=
  let q : Values := []
  let q := Values.setIf (p.Owner.string ≠ "" ∧ p.Owner ≠ NullAddress) q
    "owner" p.Owner.string
  let q := tokenIdsStep p.TokenIDs q
  let q := Values.setIf (p.Collection ≠ "") q "collection" p.Collection
  let q := Values.setIf (p.CollectionSlug ≠ "") q "collection_slug" p.Collection
  let q := Values.setIf (p.CollectionEditor ≠ "") q "collection_editor" p.Collection
  let q := Values.setIf (p.OrderDirection ≠ "") q "order_direction" p.OrderDirection
  let q := Values.setIf
    (p.AssetContractAddress.string ≠ "" ∧ p.AssetContractAddress ≠ NullAddress) q
    "asset_contract_address" p.AssetContractAddress.string
  let q := q.del "asset_contract_addresses"
  let q := contractsStep p.AssetContractAddresses q
  let q := optPosStep p.Cursor "cursor" q
  let q := optPosStep p.Limit "limit" q
  let q := includeOrdersStep p.IncludeOrders q
  q

/-- The query string `GetAssetsParams.Encode` returns. -/
def GetAssetsParams.Encode (p : GetAssetsParams) : String := (p.values).encode

theorem parseBool_formatBool (b : Bool) : parseBool (formatBool b) = some b := by
  cases b <;> decide

/-- The `include_orders` branch never fires: `ParseBool` always succeeds on
the formatted boolean, and the key is set only on error. -/
theorem includeOrdersStep_id (io : Option Bool) (q : Values) :
    includeOrdersStep io q = q := by
  cases io with
  | none => rfl
  | some b =>
    show (match parseBool (formatBool b) with
      | none => q.set "include_orders" (formatBool false)
      | some _ => q) = q
    rw [parseBool_formatBool]

theorem get_setIf_self (c : Prop) [Decidable c] (q : Values) (k v : String) :
    (Values.setIf c q k v).get k = if c then [v] else q.get k := by
  unfold Values.setIf
  by_cases hc : c
  · rw [if_pos hc, if_pos hc]
    exact get_set_self q k v
  · rw [if_neg hc, if_neg hc]

theorem get_setIf_ne (c : Prop) [Decidable c] (q : Values) (k v k0 : String)
    (h : k ≠ k0) : (Values.setIf c q k v).get k0 = q.get k0 := by
  unfold Values.setIf
  by_cases hc : c
  · rw [if_pos hc]
    exact get_set_ne q k v k0 h
  · rw [if_neg hc]

theorem nodup_setIf (c : Prop) [Decidable c] (q : Values) (k v : String)
    (h : NoDupKeys q) : NoDupKeys (Values.setIf c q k v) := by
  unfold Values.setIf
  by_cases hc : c
  · rw [if_pos hc]
    exact nodup_set q k v h
  · rw [if_neg hc]
    exact h

theorem esckeys_setIf (c : Prop) [Decidable c] (q : Values) (k v : String)
    (hq : EscKeys q) (hk : queryEscape k = k) : EscKeys (Values.setIf c q k v) := by
  unfold Values.setIf
  by_cases hc : c
  · rw [if_pos hc]
    exact esckeys_set q k v hq hk
  · rw [if_neg hc]
    exact hq

theorem get_foldl_add_self {α : Type} (l : List α) (f : α → String) (k : String)
    (q : Values) :
    (l.foldl (fun q a => q.add k (f a)) q).get k = q.get k ++ l.map f := by
  induction l generalizing q with
  | nil => simp
  | cons a rest ih =>
    rw [List.foldl_cons, ih, get_add_self]
    simp

theorem get_foldl_add_ne {α : Type} (l : List α) (f : α → String) (k k0 : String)
    (q : Values) (h : k ≠ k0) :
    (l.foldl (fun q a => q.add k (f a)) q).get k0 = q.get k0 := by
  induction l generalizing q with
  | nil => rfl
  | cons a rest ih =>
    rw [List.foldl_cons, ih, get_add_ne _ _ _ _ h]

theorem nodup_foldl_add {α : Type} (l : List α) (f : α → String) (k : String)
    (q : Values) (h : NoDupKeys q) :
    NoDupKeys (l.foldl (fun q a => q.add k (f a)) q) := by
  induction l generalizing q with
  | nil => exact h
  | cons a rest ih =>
    rw [List.foldl_cons]
    exact ih _ (nodup_add q k (f a) h)

theorem esckeys_foldl_add {α : Type} (l : List α) (f : α → String) (k : String)
    (q : Values) (hq : EscKeys q) (hk : queryEscape k = k) :
    EscKeys (l.foldl (fun q a => q.add k (f a)) q) := by
  induction l generalizing q with
  | nil => exact hq
  | cons a rest ih =>
    rw [List.foldl_cons]
    exact ih _ (esckeys_add q k (f a) hq hk)

theorem get_foldl_addIf_self {α : Type} (l : List α) (pred : α → Prop)
    [DecidablePred pred] (f : α → String) (k : String) (q : Values) :
    (l.foldl (fun q a => if pred a then q.add k (f a) else q) q).get k =
      q.get k ++ (l.filter (fun a => decide (pred a))).map f := by
  induction l generalizing q with
  | nil => simp
  | cons a rest ih =>
    rw [List.foldl_cons]
    by_cases hp : pred a
    · rw [if_pos hp, ih, get_add_self,
        List.filter_cons_of_pos (by simp [hp])]
      simp
    · rw [if_neg hp, ih, List.filter_cons_of_neg (by simp [hp])]

theorem get_foldl_addIf_ne {α : Type} (l : List α) (pred : α → Prop)
    [DecidablePred pred] (f : α → String) (k k0 : String) (q : Values)
    (h : k ≠ k0) :
    (l.foldl (fun q a => if pred a then q.add k (f a) else q) q).get k0 =
      q.get k0 := by
  induction l generalizing q with
  | nil => rfl
  | cons a rest ih =>
    rw [List.foldl_cons]
    by_cases hp : pred a
    · rw [if_pos hp, ih, get_add_ne _ _ _ _ h]
    · rw [if_neg hp, ih]

theorem nodup_foldl_addIf {α : Type} (l : List α) (pred : α → Prop)
    [DecidablePred pred] (f : α → String) (k : String) (q : Values)
    (h : NoDupKeys q) :
    NoDupKeys (l.foldl (fun q a => if pred a then q.add k (f a) else q) q) := by
  induction l generalizing q with
  | nil => exact h
  | cons a rest ih =>
    rw [List.foldl_cons]
    by_cases hp : pred a
    · rw [if_pos hp]
      exact ih _ (nodup_add q k (f a) h)
    · rw [if_neg hp]
      exact ih _ h

theorem esckeys_foldl_addIf {α : Type} (l : List α) (pred : α → Prop)
    [DecidablePred pred] (f : α → String) (k : String) (q : Values)
    (hq : EscKeys q) (hk : queryEscape k = k) :
    EscKeys (l.foldl (fun q a => if pred a then q.add k (f a) else q) q) := by
  induction l generalizing q with
  | nil => exact hq
  | cons a rest ih =>
    rw [List.foldl_cons]
    by_cases hp : pred a
    · rw [if_pos hp]
      exact ih _ (esckeys_add q k (f a) hq hk)
    · rw [if_neg hp]
      exact ih _ hq

theorem get_optPosStep_ne (o : Option Int) (k : String) (q : Values)
    (k0 : String) (h : k ≠ k0) : (optPosStep o k q).get k0 = q.get k0 := by
  cases o with
  | none => rfl
  | some n =>
    show (if n > 0 then q.set k (intDec n) else q).get k0 = q.get k0
    by_cases hp : n > 0
    · rw [if_pos hp]
      exact get_set_ne q k _ k0 h
    · rw [if_neg hp]

theorem nodup_optPosStep (o : Option Int) (k : String) (q : Values)
    (h : NoDupKeys q) : NoDupKeys (optPosStep o k q) := by
  cases o with
  | none => exact h
  | some n =>
    show NoDupKeys (if n > 0 then q.set k (intDec n) else q)
    by_cases hp : n > 0
    · rw [if_pos hp]
      exact nodup_set q k _ h
    · rw [if_neg hp]
      exact h

theorem esckeys_optPosStep (o : Option Int) (k : String) (q : Values)
    (hq : EscKeys q) (hk : queryEscape k = k) : EscKeys (optPosStep o k q) := by
  cases o with
  | none => exact hq
  | some n =>
    show EscKeys (if n > 0 then q.set k (intDec n) else q)
    by_cases hp : n > 0
    · rw [if_pos hp]
      exact esckeys_set q k _ hq hk
    · rw [if_neg hp]
      exact hq

theorem get_tokenIdsStep_self (tids : List Int) (q : Values) :
    (tokenIdsStep tids q).get "token_ids" = q.get "token_ids" ++ tids.map intDec := by
  unfold tokenIdsStep
  by_cases h : tids = []
  · rw [if_neg (by simp [h]), h]
    simp
  · rw [if_pos h]
    exact get_foldl_add_self tids intDec "token_ids" q

theorem get_tokenIdsStep_ne (tids : List Int) (q : Values) (k0 : String)
    (h : "token_ids" ≠ k0) : (tokenIdsStep tids q).get k0 = q.get k0 := by
  unfold tokenIdsStep
  by_cases he : tids = []
  · rw [if_neg (by simp [he])]
  · rw [if_pos he]
    exact get_foldl_add_ne tids intDec _ k0 q h

theorem nodup_tokenIdsStep (tids : List Int) (q : Values) (h : NoDupKeys q) :
    NoDupKeys (tokenIdsStep tids q) := by
  unfold tokenIdsStep
  by_cases he : tids = []
  · rw [if_neg (by simp [he])]
    exact h
  · rw [if_pos he]
    exact nodup_foldl_add tids intDec _ q h

theorem esckeys_tokenIdsStep (tids : List Int) (q : Values) (hq : EscKeys q) :
    EscKeys (tokenIdsStep tids q) := by
  unfold tokenIdsStep
  by_cases he : tids = []
  · rw [if_neg (by simp [he])]
    exact hq
  · rw [if_pos he]
    exact esckeys_foldl_add tids intDec _ q hq (by decide)

theorem get_contractsStep_self (addrs : List Address) (q : Values) :
    (contractsStep addrs q).get "asset_contract_addresses" =
      q.get "asset_contract_addresses" ++
        (addrs.filter (fun a => decide (a.string ≠ "" ∧ a ≠ NullAddress))).map
          Address.string := by
  unfold contractsStep
  by_cases h : addrs = []
  · rw [if_neg (by simp [h]), h]
    simp
  · rw [if_pos h]
    exact get_foldl_addIf_self addrs _ Address.string _ q

theorem get_contractsStep_ne (addrs : List Address) (q : Values) (k0 : String)
    (h : "asset_contract_addresses" ≠ k0) :
    (contractsStep addrs q).get k0 = q.get k0 := by
  unfold contractsStep
  by_cases he : addrs = []
  · rw [if_neg (by simp [he])]
  · rw [if_pos he]
    exact get_foldl_addIf_ne addrs _ Address.string _ k0 q h

theorem nodup_contractsStep (addrs : List Address) (q : Values) (h : NoDupKeys q) :
    NoDupKeys (contractsStep addrs q) := by
  unfold contractsStep
  by_cases he : addrs = []
  · rw [if_neg (by simp [he])]
    exact h
  · rw [if_pos he]
    exact nodup_foldl_addIf addrs _ Address.string _ q h

theorem esckeys_contractsStep (addrs : List Address) (q : Values)
    (hq : EscKeys q) : EscKeys (contractsStep addrs q) := by
  unfold contractsStep
  by_cases he : addrs = []
  · rw [if_neg (by simp [he])]
    exact hq
  · rw [if_pos he]
    exact esckeys_foldl_addIf addrs _ Address.string _ q hq (by decide)

theorem nodup_nil : NoDupKeys ([] : Values) := by
  simp [NoDupKeys]

theorem esckeys_nil : EscKeys ([] : Values) := by
  intro b hb
  simp at hb

/-- The `Values` the encoder builds always has unique, escape-invariant
keys. -/
theorem values_invariants (p : GetAssetsParams) :
    NoDupKeys p.values ∧ EscKeys p.values := by
  unfold GetAssetsParams.values
  dsimp only
  rw [includeOrdersStep_id]
  constructor
  · apply nodup_optPosStep
    apply nodup_optPosStep
    apply nodup_contractsStep
    apply nodup_del
    apply nodup_setIf
    apply nodup_setIf
    apply nodup_setIf
    apply nodup_setIf
    apply nodup_setIf
    apply nodup_tokenIdsStep
    apply nodup_setIf
    exact nodup_nil
  · apply esckeys_optPosStep _ _ _ ?_ (by decide)
    apply esckeys_optPosStep _ _ _ ?_ (by decide)
    apply esckeys_contractsStep
    apply esckeys_del
    apply esckeys_setIf _ _ _ _ ?_ (by decide)
    apply esckeys_setIf _ _ _ _ ?_ (by decide)
    apply esckeys_setIf _ _ _ _ ?_ (by decide)
    apply esckeys_setIf _ _ _ _ ?_ (by decide)
    apply esckeys_setIf _ _ _ _ ?_ (by decide)
    apply esckeys_tokenIdsStep
    apply esckeys_setIf _ _ _ _ ?_ (by decide)
    exact esckeys_nil

theorem values_get_token_ids (p : GetAssetsParams) :
    (p.values).get "token_ids" = p.TokenIDs.map intDec := by
  unfold GetAssetsParams.values
  dsimp only
  rw [includeOrdersStep_id,
    get_optPosStep_ne _ _ _ _ (by decide),
    get_optPosStep_ne _ _ _ _ (by decide),
    get_contractsStep_ne _ _ _ (by decide),
    get_del_ne _ _ _ (by decide),
    get_setIf_ne _ _ _ _ _ (by decide),
    get_setIf_ne _ _ _ _ _ (by decide),
    get_setIf_ne _ _ _ _ _ (by decide),
    get_setIf_ne _ _ _ _ _ (by decide),
    get_setIf_ne _ _ _ _ _ (by decide),
    get_tokenIdsStep_self,
    get_setIf_ne _ _ _ _ _ (by decide)]
  rfl

theorem values_get_owner (p : GetAssetsParams) :
    (p.values).get "owner" =
      if p.Owner.string ≠ "" ∧ p.Owner ≠ NullAddress then [p.Owner.string]
      else [] := by
  unfold GetAssetsParams.values
  dsimp only
  rw [includeOrdersStep_id,
    get_optPosStep_ne _ _ _ _ (by decide),
    get_optPosStep_ne _ _ _ _ (by decide),
    get_contractsStep_ne _ _ _ (by decide),
    get_del_ne _ _ _ (by decide),
    get_setIf_ne _ _ _ _ _ (by decide),
    get_setIf_ne _ _ _ _ _ (by decide),
    get_setIf_ne _ _ _ _ _ (by decide),
    get_setIf_ne _ _ _ _ _ (by decide),
    get_setIf_ne _ _ _ _ _ (by decide),
    get_tokenIdsStep_ne _ _ _ (by decide),
    get_setIf_self]
  rfl

theorem values_get_aca (p : GetAssetsParams) :
    (p.values).get "asset_contract_address" =
      if p.AssetContractAddress.string ≠ "" ∧ p.AssetContractAddress ≠ NullAddress
      then [p.AssetContractAddress.string] else [] := by
  unfold GetAssetsParams.values
  dsimp only
  rw [includeOrdersStep_id,
    get_optPosStep_ne _ _ _ _ (by decide),
    get_optPosStep_ne _ _ _ _ (by decide),
    get_contractsStep_ne _ _ _ (by decide),
    get_del_ne _ _ _ (by decide),
    get_setIf_self,
    get_setIf_ne _ _ _ _ _ (by decide),
    get_setIf_ne _ _ _ _ _ (by decide),
    get_setIf_ne _ _ _ _ _ (by decide),
    get_setIf_ne _ _ _ _ _ (by decide),
    get_tokenIdsStep_ne _ _ _ (by decide),
    get_setIf_ne _ _ _ _ _ (by decide)]
  rfl

theorem values_get_contracts (p : GetAssetsParams) :
    (p.values).get "asset_contract_addresses" =
      (p.AssetContractAddresses.filter
        (fun a => decide (a.string ≠ "" ∧ a ≠ NullAddress))).map Address.string := by
  unfold GetAssetsParams.values
  dsimp only
  rw [includeOrdersStep_id,
    get_optPosStep_ne _ _ _ _ (by decide),
    get_optPosStep_ne _ _ _ _ (by decide),
    get_contractsStep_self,
    get_del_self]
  rfl

/-! ## `encoding/json.Unmarshal`

A JSON value and a fuel-based recursive-descent reader, sufficient for the
shapes the client decodes: the `{success: bool}` error envelope and the asset
payloads.  Simplifications relative to the full format, none of which the
client's decoding paths depend on: string escapes are not interpreted, and
numbers are integers. -/

inductive Json where
  | null
  | bool (b : Bool)
  | num (n : Int)
  | str (s : String)
  | arr (elems : List Json)
  | obj (fields : List (String × Json))

def isWsChar (c : Char) : Bool :=
  c.toNat = 32 || c.toNat = 9 || c.toNat = 10 || c.toNat = 13

def skipWs : List Char → List Char
  | [] => []
  | c :: cs => if isWsChar c then skipWs cs else c :: cs

def parseStringBody : List Char → Option (String × List Char)
  | [] => none
  | c :: cs =>
    if c = Char.ofNat 34 then some ("", cs)
    else (parseStringBody cs).map (fun p => (⟨c :: p.1.data⟩, p.2))

def takeDigits : List Char → List Char × List Char
  | [] => ([], [])
  | c :: cs =>
    if isDigitChar c then ((c :: (takeDigits cs).1), (takeDigits cs).2)
    else ([], c :: cs)

def parseJsonNumber (l : List Char) : Option (Json × List Char) :=
  match l with
  | [] => none
  | c :: cs =>
    if c = Char.ofNat 45 then
      match takeDigits cs with
      | ([], _) => none
      | (d :: ds, rest) =>
        (parseNatAux (d :: ds) 0).map (fun n => (Json.num (-(n : Int)), rest))
    else
      match takeDigits (c :: cs) with
      | ([], _) => none
      | (d :: ds, rest) =>
        (parseNatAux (d :: ds) 0).map (fun n => (Json.num ((n : Int)), rest))

mutual

def parseJsonVal : Nat → List Char → Option (Json × List Char)
  | 0, _ => none
  | fuel+1, l =>
    match skipWs l with
    | [] => none
    | c :: cs =>
      if c = Char.ofNat 110 then
        match cs with
        | x1 :: x2 :: x3 :: rest =>
          if x1 = Char.ofNat 117 ∧ x2 = Char.ofNat 108 ∧ x3 = Char.ofNat 108 then
            some (Json.null, rest)
          else none
        | _ => none
      else if c = Char.ofNat 116 then
        match cs with
        | x1 :: x2 :: x3 :: rest =>
          if x1 = Char.ofNat 114 ∧ x2 = Char.ofNat 117 ∧ x3 = Char.ofNat 101 then
            some (Json.bool true, rest)
          else none
        | _ => none
      else if c = Char.ofNat 102 then
        match cs with
        | x1 :: x2 :: x3 :: x4 :: rest =>
          if x1 = Char.ofNat 97 ∧ x2 = Char.ofNat 108 ∧ x3 = Char.ofNat 115 ∧
              x4 = Char.ofNat 101 then
            some (Json.bool false, rest)
          else none
        | _ => none
      else if c = Char.ofNat 34 then
        (parseStringBody cs).map (fun p => (Json.str p.1, p.2))
      else if c = Char.ofNat 91 then
        parseJsonArr fuel cs
      else if c = Char.ofNat 123 then
        parseJsonObj fuel cs
      else parseJsonNumber (c :: cs)

def parseJsonArr : Nat → List Char → Option (Json × List Char)
  | 0, _ => none
  | fuel+1, l =>
    match skipWs l with
    | c :: cs =>
      if c = Char.ofNat 93 then some (Json.arr [], cs)
      else
        match parseJsonVal fuel l with
        | some (j, rest) =>
          (parseJsonArrRest fuel rest).map (fun p => (Json.arr (j :: p.1), p.2))
        | none => none
    | [] => none

def parseJsonArrRest : Nat → List Char → Option (List Json × List Char)
  | 0, _ => none
  | fuel+1, l =>
    match skipWs l with
    | c :: cs =>
      if c = Char.ofNat 93 then some ([], cs)
      else if c = Char.ofNat 44 then
        match parseJsonVal fuel cs with
        | some (j, rest) =>
          (parseJsonArrRest fuel rest).map (fun p => (j :: p.1, p.2))
        | none => none
      else none
    | [] => none

def parseJsonObj : Nat → List Char → Option (Json × List Char)
  | 0, _ => none
  | fuel+1, l =>
    match skipWs l with
    | c :: cs =>
      if c = Char.ofNat 125 then some (Json.obj [], cs)
      else
        match parseJsonMember fuel l with
        | some (kv, rest) =>
          (parseJsonObjRest fuel rest).map (fun p => (Json.obj (kv :: p.1), p.2))
        | none => none
    | [] => none

def parseJsonObjRest : Nat → List Char → Option (List (String × Json) × List Char)
  | 0, _ => none
  | fuel+1, l =>
    match skipWs l with
    | c :: cs =>
      if c = Char.ofNat 125 then some ([], cs)
      else if c = Char.ofNat 44 then
        match parseJsonMember fuel cs with
        | some (kv, rest) =>
          (parseJsonObjRest fuel rest).map (fun p => (kv :: p.1, p.2))
        | none => none
      else none
    | [] => none

def parseJsonMember : Nat → List Char → Option ((String × Json) × List Char)
  | 0, _ => none
  | fuel+1, l =>
    match skipWs l with
    | c :: cs =>
      if c = Char.ofNat 34 then
        match parseStringBody cs with
        | some (key, rest) =>
          match skipWs rest with
          | c2 :: cs2 =>
            if c2 = Char.ofNat 58 then
              (parseJsonVal fuel cs2).map (fun p => ((key, p.1), p.2))
            else none
          | [] => none
        | none => none
      else none
    | [] => none

end

/-- Parse a whole body: one JSON value followed only by whitespace. -/
def parseJson (s : String) : Option Json :=
  match parseJsonVal (s.data.length + 1) s.data with
  | some (j, rest) => if skipWs rest = [] then some j else none
  | none => none

/-- Field lookup in a decoded JSON object; as in Go's `encoding/json`, a
later duplicate key overwrites an earlier one. -/
def lookupField (fields : List (String × Json)) (k : String) : Option Json :=
  fields.foldl (fun acc f => if f.1 = k then some f.2 else acc) none

/-- The message of the error `json.Unmarshal` reports on a body that is not
valid JSON.  Modelled on Go's syntax-error message; what matters for the
theorems below is that it is built from the JSON text alone (the HTTP status
code is not in scope where this error is produced). -/
def unmarshalErrMsg (body : String) : String :=
  match skipWs body.data with
  | [] => "unexpected end of JSON input"
  | c :: _ =>
    "invalid character " ++ String.singleton c ++ " looking for beginning of value"

/-- `json.Unmarshal(body, e)` for `e : *errorResponse` (the struct with the
single field `Success bool` tagged `json:"success"`): a JSON object populates
`Success` from its `success` member (`false` when absent, a type error when
not a boolean), `null` leaves the zero value, any other document is an
error. -/
def unmarshalEnvelope (body : String) : Except String Bool :=
  match parseJson body with
  | none => .error (unmarshalErrMsg body)
  | some (Json.obj fields) =>
    match lookupField fields "success" with
    | some (Json.bool b) => .ok b
    | some _ =>
      .error "json: cannot unmarshal value into Go struct field errorResponse.success of type bool"
    | none => .ok false
  | some Json.null => .ok false
  | some _ => .error "json: cannot unmarshal value into Go value of type opensea.errorResponse"

/-- Modelled from the spec: the decoded collection-response value
(`AssetResponse`, defined in a source file not under `src/`): a success
payload carrying the list of assets.  Only its JSON-decoding behaviour is
needed: `new(AssetResponse)` starts from the zero value, and `json.Unmarshal`
populates it from an object (or leaves it zero on `null`/missing field) and
reports an error otherwise. -/
structure AssetResponse where
  assets : List Json

def AssetResponse.zero : AssetResponse := ⟨[]⟩

def unmarshalAssetResponse (body : String) : AssetResponse × Option String :=
  match parseJson body with
  | none => (AssetResponse.zero, some (unmarshalErrMsg body))
  | some (Json.obj fields) =>
    match lookupField fields "assets" with
    | some (Json.arr xs) => (⟨xs⟩, none)
    | some _ =>
      (AssetResponse.zero,
        some "json: cannot unmarshal value into Go struct field AssetResponse.assets")
    | none => (AssetResponse.zero, none)
  | some Json.null => (AssetResponse.zero, none)
  | some _ =>
    (AssetResponse.zero,
      some "json: cannot unmarshal value into Go value of type opensea.AssetResponse")

/-- Modelled from the spec: the decoded single-item value (`Asset`, defined
in a source file not under `src/`).  As with `AssetResponse`, only its
JSON-decoding behaviour is needed. -/
structure Asset where
  fields : List (String × Json)

def Asset.zero : Asset := ⟨[]⟩

def unmarshalAsset (body : String) : Asset × Option String :=
  match parseJson body with
  | none => (Asset.zero, some (unmarshalErrMsg body))
  | some (Json.obj fields) => (⟨fields⟩, none)
  | some Json.null => (Asset.zero, none)
  | some _ =>
    (Asset.zero, some "json: cannot unmarshal value into Go value of type opensea.Asset")

/-! ## The client's response handling -/

/-- What the transport delivered: the status code and the fully read body
(`resp.StatusCode` and the bytes `ioutil.ReadAll` returned). -/
structure HttpResponse where
  statusCode : Nat
  body : String

/-- The errors `Opensea.getURL` can return once a response has been read:
the `json.Unmarshal` error returned as-is, the `errorResponse` value (whose
`Error()` is the fixed string `"Not success"`), or the formatted
`fmt.Errorf("backend returns status %d msg: %s", ...)` error. -/
inductive GetError where
  | unmarshalError (msg : String)
  | notSuccess
  | backendStatus (status : Nat) (body : String)

def GetError.message : GetError → String
  | .unmarshalError m => m
  | .notSuccess => "Not success"
  | .backendStatus s b => "backend returns status " ++ natDec s ++ " msg: " ++ b

/-- `Opensea.getURL`, from the point where the response has been read: on a
status other than `http.StatusOK` (200), try to decode the error envelope —
returning the decode error itself if that fails, the envelope error if
`Success` is false, and the formatted backend error otherwise; on 200, return
the body. -/
def getURL (resp : HttpResponse) : Except GetError String :=
  if resp.statusCode ≠ 200 then
    match unmarshalEnvelope resp.body with
    | .error msg => .error (.unmarshalError msg)
    | .ok success =>
      if !success then .error .notSuccess
      else .error (.backendStatus resp.statusCode resp.body)
  else .ok resp.body

/-- The path `GetAssetsWithContext` requests. -/
def getAssetsPath (params : GetAssetsParams) : String :=
  "/api/v1/assets/?" ++ params.Encode

/-- `Opensea.GetAssetsWithContext` as a function of the delivered response:
propagate a `getURL` error with a nil result; otherwise allocate the zero
`AssetResponse`, decode into it, and return it (non-nil) together with
whatever error `json.Unmarshal` produced. -/
def GetAssetsWithContext (resp : HttpResponse) :
    Option AssetResponse × Option GetError :=
  match getURL resp with
  | .error e => (none, some e)
  | .ok body =>
    (some (unmarshalAssetResponse body).1,
      (unmarshalAssetResponse body).2.map GetError.unmarshalError)

/-- The path `GetSingleAssetWithContext` requests:
`fmt.Sprintf("/api/v1/asset/%s/%s", assetContractAddress, tokenID.String())`
with `tokenID : *big.Int`. -/
def getSingleAssetPath (assetContractAddress : String) (tokenID : Int) : String :=
  "/api/v1/asset/" ++ assetContractAddress ++ "/" ++ intDec tokenID

/-- `Opensea.GetSingleAssetWithContext` as a function of the delivered
response (see `GetAssetsWithContext`). -/
def GetSingleAssetWithContext (resp : HttpResponse) :
    Option Asset × Option GetError :=
  match getURL resp with
  | .error e => (none, some e)
  | .ok body =>
    (some (unmarshalAsset body).1,
      (unmarshalAsset body).2.map GetError.unmarshalError)

/-- Substring test, used to state what an error message carries. -/
def leadsWith : List Char → List Char → Bool
  | [], _ => true
  | _ :: _, [] => false
  | a :: as, b :: bs => a = b && leadsWith as bs

def containsSub : List Char → List Char → Bool
  | pat, [] => leadsWith pat []
  | pat, c :: cs => leadsWith pat (c :: cs) || containsSub pat cs

def strContains (hay pat : String) : Bool := containsSub pat.data hay.data

/-! ## Claim theorems -/

/-- The `{"success": false}` envelope body used by several concrete checks. -/
def falseEnvelopeBody : String := "\x7b\"success\": false\x7d"

/-- C3 counterexample: for the HTTP 500 response with the unparseable body
`oops`, `getURL` returns the bare `json.Unmarshal` error, whose message
contains neither the status code `500` nor the body text `oops` — the
formatted status-and-body error is not what the caller receives. -/
theorem c3_counterexample_500_oops :
    getURL ⟨500, "oops"⟩ =
      Except.error (GetError.unmarshalError (unmarshalErrMsg "oops")) ∧
    unmarshalErrMsg "oops" =
      "invalid character o looking for beginning of value" ∧
    strContains (GetError.message (GetError.unmarshalError (unmarshalErrMsg "oops")))
      "500" = false ∧
    strContains (GetError.message (GetError.unmarshalError (unmarshalErrMsg "oops")))
      "oops" = false :=
  ⟨rfl, rfl, rfl, rfl⟩

/-- C3 (amended): on a response with a status other than 200 whose body does
not decode into the `{success: bool}` envelope, `getURL` returns the JSON
decode error itself, as-is; the formatted error carrying the status code and
raw body is produced only when the envelope decodes with `success = true`. -/
theorem non200_undecodable_returns_unmarshal_error (resp : HttpResponse)
    (msg : String) (h200 : resp.statusCode ≠ 200)
    (hdec : unmarshalEnvelope resp.body = Except.error msg) :
    getURL resp = Except.error (GetError.unmarshalError msg) := by
  unfold getURL
  rw [if_pos h200, hdec]

theorem non200_undecodable_returns_unmarshal_error_witness :
    ((⟨500, "oops"⟩ : HttpResponse).statusCode ≠ 200 ∧
      unmarshalEnvelope (⟨500, "oops"⟩ : HttpResponse).body =
        Except.error (unmarshalErrMsg "oops")) ∧
    getURL ⟨500, "oops"⟩ =
      Except.error (GetError.unmarshalError (unmarshalErrMsg "oops")) :=
  ⟨⟨by decide, rfl⟩,
    non200_undecodable_returns_unmarshal_error ⟨500, "oops"⟩ _ (by decide) rfl⟩

/-- C4 counterexample: HTTP 201 is a 2xx status, yet the client routes it
into the error-envelope path (`getURL` branches on `!= 200`, not on non-2xx):
with the decodable body `{"success": false}` the call returns the envelope
error and a nil result instead of decoding the body into the response
shape. -/
theorem c4_counterexample_201_envelope :
    GetAssetsWithContext ⟨201, falseEnvelopeBody⟩ =
      (none, some GetError.notSuccess) := rfl

/-- C4 (amended): for a response with status exactly 200 (`http.StatusOK`),
the client decodes the body directly into the target response shape without
entering the error-envelope path, and a decode failure is surfaced as-is;
2xx statuses other than 200 take the error path instead. -/
theorem status200_decodes_directly (resp : HttpResponse)
    (h : resp.statusCode = 200) :
    GetAssetsWithContext resp =
      (some (unmarshalAssetResponse resp.body).1,
        (unmarshalAssetResponse resp.body).2.map GetError.unmarshalError) := by
  unfold GetAssetsWithContext getURL
  rw [if_neg (not_not_intro h)]

theorem status200_decodes_directly_witness :
    (⟨200, "oops"⟩ : HttpResponse).statusCode = 200 ∧
    GetAssetsWithContext ⟨200, "oops"⟩ =
      (some (unmarshalAssetResponse "oops").1,
        (unmarshalAssetResponse "oops").2.map GetError.unmarshalError) :=
  ⟨rfl, status200_decodes_directly ⟨200, "oops"⟩ rfl⟩

/-- C8: for a response with a non-2xx status whose body decodes to the
envelope with `success = false` (such as HTTP 404 with
`{"success": false}`), the list call returns a nil result and the non-nil
generic error whose message is `"Not success"`. -/
theorem non2xx_false_envelope_not_success (resp : HttpResponse)
    (h2xx : ¬(200 ≤ resp.statusCode ∧ resp.statusCode < 300))
    (henv : unmarshalEnvelope resp.body = Except.ok false) :
    GetAssetsWithContext resp = (none, some GetError.notSuccess) ∧
    GetError.message GetError.notSuccess = "Not success" := by
  have h200 : resp.statusCode ≠ 200 := by omega
  constructor
  · unfold GetAssetsWithContext getURL
    rw [if_pos h200, henv]
    rfl
  · rfl

theorem non2xx_false_envelope_not_success_witness :
    (¬(200 ≤ (⟨404, falseEnvelopeBody⟩ : HttpResponse).statusCode ∧
        (⟨404, falseEnvelopeBody⟩ : HttpResponse).statusCode < 300) ∧
      unmarshalEnvelope (⟨404, falseEnvelopeBody⟩ : HttpResponse).body =
        Except.ok false) ∧
    GetAssetsWithContext ⟨404, falseEnvelopeBody⟩ =
      (none, some GetError.notSuccess) ∧
    GetError.message GetError.notSuccess = "Not success" :=
  ⟨⟨by decide, rfl⟩,
    non2xx_false_envelope_not_success ⟨404, falseEnvelopeBody⟩ (by decide) rfl⟩

/-- C9: the single-asset request path is
`/api/v1/asset/{contractAddress}/{tokenId}` with the token ID rendered as its
full decimal string — for every integer, including those beyond the 64-bit
range (witnessed by `123456789012345678901234567890`), the rendering parses
back to the same integer and is a well-formed decimal numeral. -/
theorem single_asset_path_decimal (addr : String) (tokenID : Int) :
    getSingleAssetPath addr tokenID =
      "/api/v1/asset/" ++ addr ++ "/" ++ intDec tokenID ∧
    decodeDecimal (intDec tokenID) = some tokenID ∧
    goodDecimal (intDec tokenID) = true ∧
    decodeDecimal (intDec 123456789012345678901234567890) =
      some 123456789012345678901234567890 :=
  ⟨rfl, intDec_roundtrip tokenID, goodDecimal_intDec tokenID,
    intDec_roundtrip 123456789012345678901234567890⟩

/-- C10: on an HTTP 200 response whose body fails to decode into the target
shape, both request methods return a freshly allocated non-nil result
together with the non-nil decode error, rather than a nil result. -/
theorem decode_failure_keeps_result (resp : HttpResponse)
    (h200 : resp.statusCode = 200) :
    ((unmarshalAssetResponse resp.body).2.isSome = true →
      (GetAssetsWithContext resp).1.isSome = true ∧
      (GetAssetsWithContext resp).2.isSome = true) ∧
    ((unmarshalAsset resp.body).2.isSome = true →
      (GetSingleAssetWithContext resp).1.isSome = true ∧
      (GetSingleAssetWithContext resp).2.isSome = true) := by
  have hget : getURL resp = Except.ok resp.body := by
    unfold getURL
    rw [if_neg (not_not_intro h200)]
  constructor
  · intro herr
    unfold GetAssetsWithContext
    rw [hget]
    constructor
    · rfl
    · cases ho : (unmarshalAssetResponse resp.body).2 with
      | none => rw [ho] at herr; simp at herr
      | some m => simp [ho]
  · intro herr
    unfold GetSingleAssetWithContext
    rw [hget]
    constructor
    · rfl
    · cases ho : (unmarshalAsset resp.body).2 with
      | none => rw [ho] at herr; simp at herr
      | some m => simp [ho]

theorem decode_failure_keeps_result_witness :
    ((⟨200, "oops"⟩ : HttpResponse).statusCode = 200 ∧
      (unmarshalAssetResponse (⟨200, "oops"⟩ : HttpResponse).body).2.isSome = true ∧
      (unmarshalAsset (⟨200, "oops"⟩ : HttpResponse).body).2.isSome = true) ∧
    ((GetAssetsWithContext ⟨200, "oops"⟩).1.isSome = true ∧
      (GetAssetsWithContext ⟨200, "oops"⟩).2.isSome = true) ∧
    ((GetSingleAssetWithContext ⟨200, "oops"⟩).1.isSome = true ∧
      (GetSingleAssetWithContext ⟨200, "oops"⟩).2.isSome = true) :=
  ⟨⟨rfl, rfl, rfl⟩,
    (decode_failure_keeps_result ⟨200, "oops"⟩ rfl).1 rfl,
    (decode_failure_keeps_result ⟨200, "oops"⟩ rfl).2 rfl⟩

/-- C2: a parameter record whose `Owner` is the null-address sentinel
produces a query string with no `owner` entry at all, and likewise a
null-sentinel `AssetContractAddress` yields no `asset_contract_address`
entry. -/
theorem null_address_fields_omitted (p : GetAssetsParams) :
    (p.Owner = NullAddress → keyVals p.Encode "owner" = []) ∧
    (p.AssetContractAddress = NullAddress →
      keyVals p.Encode "asset_contract_address" = []) := by
  obtain ⟨hnd, hesc⟩ := values_invariants p
  constructor
  · intro h
    show keyVals (p.values.encode) "owner" = []
    rw [keyVals_encode _ _ hnd hesc, values_get_owner]
    have hneg : ¬(p.Owner.string ≠ "" ∧ p.Owner ≠ NullAddress) := fun hx => hx.2 h
    rw [if_neg hneg]
    rfl
  · intro h
    show keyVals (p.values.encode) "asset_contract_address" = []
    rw [keyVals_encode _ _ hnd hesc, values_get_aca]
    have hneg : ¬(p.AssetContractAddress.string ≠ "" ∧
        p.AssetContractAddress ≠ NullAddress) := fun hx => hx.2 h
    rw [if_neg hneg]
    rfl

def pNullAddrs : GetAssetsParams :=
  ⟨NullAddress, [], "", "", "", "", NullAddress, [], none, none, none⟩

theorem null_address_fields_omitted_witness :
    (pNullAddrs.Owner = NullAddress ∧ pNullAddrs.AssetContractAddress = NullAddress) ∧
    keyVals pNullAddrs.Encode "owner" = [] ∧
    keyVals pNullAddrs.Encode "asset_contract_address" = [] :=
  ⟨⟨rfl, rfl⟩, (null_address_fields_omitted pNullAddrs).1 rfl,
    (null_address_fields_omitted pNullAddrs).2 rfl⟩

/-- C5: in the encoded query string the `asset_contract_addresses` entries
are exactly the list's entries that differ from the null sentinel, one entry
per remaining element in list order, each carrying the address's string form
(the hypothesis states the spec's data model: list entries are normalized
addresses — nonempty strings of unreserved characters). -/
theorem contract_addresses_filtering (p : GetAssetsParams)
    (h : ∀ a ∈ p.AssetContractAddresses,
      a.string ≠ "" ∧ ∀ c ∈ (a.string).data, isUnreserved c = true) :
    keyVals p.Encode "asset_contract_addresses" =
      (p.AssetContractAddresses.filter
        (fun a => decide (a ≠ NullAddress))).map Address.string := by
  obtain ⟨hnd, hesc⟩ := values_invariants p
  show keyVals (p.values.encode) "asset_contract_addresses" = _
  rw [keyVals_encode _ _ hnd hesc, values_get_contracts]
  have hfil : p.AssetContractAddresses.filter
      (fun a => decide (a.string ≠ "" ∧ a ≠ NullAddress)) =
      p.AssetContractAddresses.filter (fun a => decide (a ≠ NullAddress)) := by
    apply List.filter_congr
    intro a ha
    have h1 := (h a ha).1
    simp [h1]
  rw [hfil, List.map_map]
  apply List.map_congr_left
  intro a ha
  exact queryEscape_unreserved _ (h a (List.mem_of_mem_filter ha)).2

def pContracts : GetAssetsParams :=
  ⟨"", [], "", "", "", "", "", ["0xaaaa", NullAddress, "0xbbbb"], none, none, none⟩

theorem contract_addresses_filtering_witness :
    (∀ a ∈ pContracts.AssetContractAddresses,
      a.string ≠ "" ∧ ∀ c ∈ (a.string).data, isUnreserved c = true) ∧
    keyVals pContracts.Encode "asset_contract_addresses" =
      (pContracts.AssetContractAddresses.filter
        (fun a => decide (a ≠ NullAddress))).map Address.string :=
  ⟨by decide, contract_addresses_filtering pContracts (by decide)⟩

/-- C7: for a record with a non-empty token-ID list, the encoded query
string carries exactly one `token_ids` entry per list element, in list
order, each value being the element's base-10 rendering — which parses back
to the element and is a well-formed decimal numeral (no leading zeros or
sign anomalies). -/
theorem token_ids_entries (p : GetAssetsParams) (h : p.TokenIDs ≠ []) :
    keyVals p.Encode "token_ids" = p.TokenIDs.map intDec ∧
    ∀ t ∈ p.TokenIDs, decodeDecimal (intDec t) = some t ∧
      goodDecimal (intDec t) = true := by
  obtain ⟨hnd, hesc⟩ := values_invariants p
  constructor
  · show keyVals (p.values.encode) "token_ids" = _
    rw [keyVals_encode _ _ hnd hesc, values_get_token_ids, List.map_map]
    exact List.map_congr_left (fun t _ => queryEscape_intDec t)
  · exact fun t _ => ⟨intDec_roundtrip t, goodDecimal_intDec t⟩

def pTokens : GetAssetsParams :=
  ⟨"", [7, 360], "", "", "", "", "", [], none, none, none⟩

theorem token_ids_entries_witness :
    pTokens.TokenIDs ≠ [] ∧
    keyVals pTokens.Encode "token_ids" = pTokens.TokenIDs.map intDec ∧
    ∀ t ∈ pTokens.TokenIDs, decodeDecimal (intDec t) = some t ∧
      goodDecimal (intDec t) = true :=
  ⟨by decide, (token_ids_entries pTokens (by decide)).1,
    (token_ids_entries pTokens (by decide)).2⟩

def pIncludeOrders : GetAssetsParams :=
  ⟨"", [], "", "", "", "", "", [], none, none, some true⟩

/-- C1 (code bug, at the failing input): with `IncludeOrders` explicitly set
(non-nil pointer to `true`), the encoded query string carries no
`include_orders` entry at all — the branch sets the key only when
`strconv.ParseBool` fails on `fmt.Sprintf("%v", *p.IncludeOrders)`, which
never happens, so the field can never be emitted.  (The cursor/limit clause
of the claim matches the code; the include-orders clause is what fails.) -/
theorem include_orders_never_emitted :
    pIncludeOrders.IncludeOrders = some true ∧
    keyVals pIncludeOrders.Encode "include_orders" = [] :=
  ⟨rfl, rfl⟩

def pSlugEditor : GetAssetsParams :=
  ⟨"", [], "other", "myslug", "myeditor", "", "", [], none, none, none⟩

/-- C6 (code bug, at the failing input): with `Collection = "other"`,
`CollectionSlug = "myslug"` and `CollectionEditor = "myeditor"`, the encoder
emits `collection_slug=other` and `collection_editor=other` — both branches
are gated on their own field but set the `Collection` field's value
(`q.Set("collection_slug", p.Collection)`), so the entries never carry the
populated fields' own values. -/
theorem collection_slug_editor_value_bug :
    pSlugEditor.CollectionSlug = "myslug" ∧
    pSlugEditor.CollectionEditor = "myeditor" ∧
    keyVals pSlugEditor.Encode "collection_slug" = ["other"] ∧
    keyVals pSlugEditor.Encode "collection_editor" = ["other"] :=
  ⟨rfl, rfl, rfl, rfl⟩
